import Mathlib

/-!
A verification development for the DEXTER guiding-center orbit code.

The physics kernel (interpolators, ODE core, orbit drivers, ensemble
driver) is embedded as executable Lean definitions; the Python helper
scripts (`lar_netcdf.py`, `npz_to_netcdf.py`, `poincare_plots.py`) are
embedded function by function.  Theorems at the end of the file settle
the stated properties of the system against these definitions.
-/

namespace Dexter

/-- The observable integration status of a particle, as enumerated in
`dexter/types.py` (`IntegrationStatus`). -/
inductive Status where
  | Initialized
  | Integrated
  | Mapped
  | SinglePeriodIntegrated
  | Escaped
  | EvaluationNaN
  | TimedOut
  | InvalidIntersections
  | Failed
deriving DecidableEq, Repr

/-- The Poincaré surface-of-section choice (`dexter/types.py`,
`PoincareSection`). -/
inductive PoincareSection where
  | ConstTheta
  | ConstZeta
deriving DecidableEq, Repr

/-- One sampled point of a trajectory: the four state coordinates plus the
derived diagnostics (ψ, P_θ, P_ζ, E), exactly the nine arrays that an
`Evolution` stores. -/
structure Sample where
  time : ℝ
  theta : ℝ
  psip : ℝ
  rho : ℝ
  zeta : ℝ
  psi : ℝ
  ptheta : ℝ
  pzeta : ℝ
  energy : ℝ

/-- Modelled from the spec: the `Evolution` record of a particle (the Rust
core is not in the repository snapshot; its shape follows the data-model
table and `test_initial_evolution`).  Nine structure-of-arrays sample
columns, the accepted-step counter `steps_taken`, and the energy spread
`energy_std` (absent — NaN in the source — until computed). -/
structure Evolution where
  time : List ℝ
  theta : List ℝ
  psip : List ℝ
  rho : List ℝ
  zeta : List ℝ
  psi : List ℝ
  ptheta : List ℝ
  pzeta : List ℝ
  energy : List ℝ
  steps_taken : Nat
  energy_std : Option ℝ

/-- A fresh `Evolution` holding only the initial state: nine length-one
arrays, zero steps taken. -/
def Evolution.init (s : Sample) : Evolution :=
  ⟨[s.time], [s.theta], [s.psip], [s.rho], [s.zeta], [s.psi], [s.ptheta],
    [s.pzeta], [s.energy], 0, none⟩

/-- Append one sample to all nine columns. -/
def Evolution.push (e : Evolution) (s : Sample) : Evolution :=
  { e with
    time := e.time ++ [s.time]
    theta := e.theta ++ [s.theta]
    psip := e.psip ++ [s.psip]
    rho := e.rho ++ [s.rho]
    zeta := e.zeta ++ [s.zeta]
    psi := e.psi ++ [s.psi]
    ptheta := e.ptheta ++ [s.ptheta]
    pzeta := e.pzeta ++ [s.pzeta]
    energy := e.energy ++ [s.energy] }

/-- Count one more accepted integrator step. -/
def Evolution.incTaken (e : Evolution) : Evolution :=
  { e with steps_taken := e.steps_taken + 1 }

/-- The number of stored samples (the common length of the nine arrays). -/
def Evolution.steps_stored (e : Evolution) : Nat :=
  e.time.length

/-- All nine sample columns have length `n`. -/
def Evolution.allLen (e : Evolution) (n : Nat) : Prop :=
  e.time.length = n ∧ e.theta.length = n ∧ e.psip.length = n ∧
    e.rho.length = n ∧ e.zeta.length = n ∧ e.psi.length = n ∧
    e.ptheta.length = n ∧ e.pzeta.length = n ∧ e.energy.length = n

/-- The `Evolution` invariant from the data-model table: equal column
lengths, at least the initial sample stored, and at least
`steps_stored − 1` accepted steps taken. -/
def Evolution.wf (e : Evolution) : Prop :=
  e.allLen e.steps_stored ∧ 1 ≤ e.steps_stored ∧
    e.steps_stored - 1 ≤ e.steps_taken

/-- Modelled from the spec: the outcome of one attempted integrator step as
seen by a driver (the ODE core itself is not in the repository snapshot).
An accepted step carries the new state and, when the dense-output event
root finder located one, the Poincaré-crossing state; the remaining
outcomes are the per-particle failure events of §4.4 and §5 (escape,
NaN/inf from the RHS, outer cancellation). -/
inductive StepEvent where
  | accepted (s : Sample) (crossing : Option Sample)
  | escaped
  | nan
  | cancelled

/-- Modelled from the spec: the Poincaré map driver (§4.5).  It consumes
the integrator's step outcomes up to the step budget, counts located
crossings, and stores exactly the crossing states on top of whatever the
evolution already holds; it stops at the `K`-th crossing with status
`Mapped`, on a failure event with the matching failure status, on budget
exhaustion with `TimedOut`, and with `InvalidIntersections` when the
integrator can no longer continue before `K` crossings were found. -/
def mapDriver (K : Nat) : Nat → List StepEvent → Nat → Evolution →
    Status × Evolution
  | _, [], _, e => (.InvalidIntersections, e)
  | budget, ev :: rest, found, e =>
    match ev with
    | .escaped => (.Escaped, e)
    | .nan => (.EvaluationNaN, e)
    | .cancelled => (.Failed, e)
    | .accepted _ crossing =>
      match budget with
      | 0 => (.TimedOut, e)
      | b + 1 =>
        match crossing with
        | none => mapDriver K b rest found e.incTaken
        | some c =>
          if found + 1 = K then (.Mapped, e.incTaken.push c)
          else mapDriver K b rest (found + 1) (e.incTaken.push c)

/-- Modelled from the spec: the fixed-interval integration driver (§4.5).
Every accepted step is stored; exhausting the event stream means the
terminal time was reached (`Integrated`). -/
def integrateDriver : Nat → List StepEvent → Evolution →
    Status × Evolution
  | _, [], e => (.Integrated, e)
  | budget, ev :: rest, e =>
    match ev with
    | .escaped => (.Escaped, e)
    | .nan => (.EvaluationNaN, e)
    | .cancelled => (.Failed, e)
    | .accepted s _ =>
      match budget with
      | 0 => (.TimedOut, e)
      | b + 1 => integrateDriver b rest (e.incTaken.push s)

/-- Modelled from the spec: one attempted step as seen by the
single-period driver; when the orbit closed in the (θ, ψ_p) plane during
this step the detector reports the period `T` and the orbit average
⟨dζ/dt⟩. -/
inductive PeriodEvent where
  | accepted (s : Sample) (closure : Option (ℝ × ℝ))
  | escaped
  | nan
  | cancelled

/-- The single-period driver either fails with a failure status or finds
the period and the orbit-averaged toroidal drift. -/
inductive FreqOutcome where
  | failed (st : Status)
  | found (T avg : ℝ)

/-- Modelled from the spec: the single-period integration driver (§4.5).
Accepted steps are stored; the run ends when the closure detector fires,
when a failure event arrives, or when the budget (or the integrator) is
exhausted. -/
def freqDriver : Nat → List PeriodEvent → Evolution →
    FreqOutcome × Evolution
  | _, [], e => (.failed .TimedOut, e)
  | budget, ev :: rest, e =>
    match ev with
    | .escaped => (.failed .Escaped, e)
    | .nan => (.failed .EvaluationNaN, e)
    | .cancelled => (.failed .Failed, e)
    | .accepted s closure =>
      match budget with
      | 0 => (.failed .TimedOut, e)
      | b + 1 =>
        match closure with
        | some (T, avg) => (.found T avg, e.incTaken.push s)
        | none => freqDriver b rest (e.incTaken.push s)

/-- The three orbit frequencies of a particle, each possibly absent
(`None` in the Python binding). -/
structure Frequencies where
  omega_theta : Option ℝ
  omega_zeta : Option ℝ
  qkinetic : Option ℝ

/-- Modelled from the spec: a `Particle` — status, sampled evolution and
extracted frequencies (the initial conditions play no role in the
properties below and are summarised by the initial sample). -/
structure Particle where
  status : Status
  evolution : Evolution
  frequencies : Frequencies

/-- A freshly constructed particle: `Initialized`, only the initial state
stored, no frequencies. -/
def Particle.init (s : Sample) : Particle :=
  ⟨.Initialized, Evolution.init s, ⟨none, none, none⟩⟩

/-- Poincaré-mapping configuration: the section, the coordinate value α of
the cut, and the target crossing count `K = intersections` (the source
field `section` is a reserved word here). -/
structure MappingParameters where
  sect : PoincareSection
  alpha : ℝ
  intersections : Nat

/-- Drive a particle with the Poincaré map driver.  Only `Initialized`
particles may be driven; a re-drive is rejected and leaves the particle
unchanged (§9, particle state machine). -/
def Particle.map (p : Particle) (params : MappingParameters) (budget : Nat)
    (events : List StepEvent) : Particle :=
  if p.status = .Initialized then
    let r := mapDriver params.intersections budget events 0 p.evolution
    { p with status := r.1, evolution := r.2 }
  else p

/-- Drive a particle with the fixed-interval integration driver. -/
def Particle.integrate (p : Particle) (budget : Nat)
    (events : List StepEvent) : Particle :=
  if p.status = .Initialized then
    let r := integrateDriver budget events p.evolution
    { p with status := r.1, evolution := r.2 }
  else p

/-- Drive a particle with the single-period driver.  On success the status
becomes `SinglePeriodIntegrated` and all three frequencies are set from the
period `T` and the orbit average ⟨dζ/dt⟩ (§4.5: ω_θ = 2π/T, ω_ζ = ⟨dζ/dt⟩,
q_kin = ω_ζ/ω_θ); on failure the failure status is recorded and the
frequencies remain absent. -/
noncomputable def Particle.calculate_frequencies (p : Particle)
    (budget : Nat) (events : List PeriodEvent) : Particle :=
  if p.status = .Initialized then
    match freqDriver budget events p.evolution with
    | (.failed st, e) => { p with status := st, evolution := e }
    | (.found T avg, e) =>
      { status := .SinglePeriodIntegrated
        evolution := e
        frequencies :=
          ⟨some (2 * Real.pi / T), some avg,
            some (avg / (2 * Real.pi / T))⟩ }
  else p

/-- The particles reachable from construction by any sequence of driver
invocations. -/
inductive Reached : Particle → Prop where
  | init (s : Sample) : Reached (Particle.init s)
  | map (p : Particle) (params : MappingParameters) (budget : Nat)
      (events : List StepEvent) : Reached p →
      Reached (p.map params budget events)
  | integrate (p : Particle) (budget : Nat) (events : List StepEvent) :
      Reached p → Reached (p.integrate budget events)
  | calc_freqs (p : Particle) (budget : Nat) (events : List PeriodEvent) :
      Reached p → Reached (p.calculate_frequencies budget events)

/-- Modelled from the spec: the particle ensemble.  `N` particles plus the
structure-of-arrays crossing matrices collected by the last Poincaré run
(`None` entries are the NaN padding of failed particles). -/
structure Heap where
  particles : List Particle
  thetas : List (List (Option ℝ))
  psips : List (List (Option ℝ))
  zetas : List (List (Option ℝ))
  psis : List (List (Option ℝ))

/-- A freshly constructed heap: one `Initialized` particle per seed, and
four empty (shape `(0, 0)`) crossing matrices, as asserted by
`test_heap_initialization`. -/
def Heap.init (seeds : List Sample) : Heap :=
  ⟨seeds.map Particle.init, [], [], [], []⟩

/-- One row of a crossing matrix: the `K` crossing states of a `Mapped`
particle (everything stored after the initial sample), or a NaN-padded
row of length `K` for a particle that failed (§4.6). -/
def crossRow (K : Nat) (coord : Evolution → List ℝ) (p : Particle) :
    List (Option ℝ) :=
  if p.status = .Mapped then ((coord p.evolution).drop 1).map some
  else List.replicate K none

/-- Modelled from the spec: `Heap.poincare` (§4.6).  Each particle is
driven by its own map driver on its own integrator outcomes; the results
are collected into the four structure-of-arrays crossing matrices.  A
per-particle failure is recorded in that particle's status and the
ensemble call always returns with every other particle's result intact. -/
def Heap.poincare (h : Heap) (params : MappingParameters) (budget : Nat)
    (evss : List (List StepEvent)) : Heap :=
  let results := (h.particles.zip evss).map
    (fun pe => pe.1.map params budget pe.2)
  { particles := results
    thetas := results.map (crossRow params.intersections Evolution.theta)
    psips := results.map (crossRow params.intersections Evolution.psip)
    zetas := results.map (crossRow params.intersections Evolution.zeta)
    psis := results.map (crossRow params.intersections Evolution.psi) }

/-- Modelled from the spec: `Heap.calculate_frequencies` (§4.6).  Runs the
single-period driver per particle; per-particle failures are recorded,
never fatal to the ensemble. -/
noncomputable def Heap.calculate_frequencies (h : Heap) (budget : Nat)
    (evss : List (List PeriodEvent)) : Heap :=
  { h with
    particles := (h.particles.zip evss).map
      (fun pe => pe.1.calculate_frequencies budget pe.2) }

/-- Modelled from the spec: the Poincaré event function for a ConstTheta
section (§4.5), g = sin((θ − α)/2). -/
noncomputable def constThetaEvent (alpha theta : ℝ) : ℝ :=
  Real.sin ((theta - alpha) / 2)

/-- Modelled from the spec: the Poincaré event function for a ConstZeta
section (§4.5), g = sin((ζ − α)/2). -/
noncomputable def constZetaEvent (alpha zeta : ℝ) : ℝ :=
  Real.sin ((zeta - alpha) / 2)

/-- A concrete initial state used to exercise the drivers on explicit
inputs. -/
def sample0 : Sample := ⟨0, 0, 0, 0, 0, 0, 0, 0, 0⟩

/-- Concrete mapping parameters: ConstTheta cut at α = 3.14, two target
crossings. -/
def paramsTwo : MappingParameters := ⟨.ConstTheta, 3.14, 2⟩

/-- A concrete integrator run with two located crossings. -/
def eventsTwoCross : List StepEvent :=
  [.accepted sample0 none, .accepted sample0 (some sample0),
    .accepted sample0 (some sample0)]

/-- A concrete single-period run in which the closure detector fires on
the second step with period `T = 1` and ⟨dζ/dt⟩ = 2. -/
def peventsFound : List PeriodEvent :=
  [.accepted sample0 none, .accepted sample0 (some (1, 2))]

end Dexter

namespace LarNetcdf

/-!
Embedding of `dexter/scripts/lar_netcdf.py`: the stub tool producing the
LAR test equilibrium with a parabolic q-profile.
-/

def FLUX_SURFACES : Nat := 100

noncomputable def baxis : ℝ := 1.5

noncomputable def raxis : ℝ := 1.75

noncomputable def q0 : ℝ := 1.1

noncomputable def qwall : ℝ := 1.9

/-- The minor radius in meters. -/
noncomputable def a : ℝ := 0.5

/-- The source's `psi_wall = (a / raxis) ** 2 / 2`: the wall value of the
normalized toroidal flux grid `psi_norm`. -/
noncomputable def psi_wall : ℝ := (a / raxis) ^ 2 / 2

/-- The parabolic q-profile over the toroidal flux. -/
noncomputable def parabolic_q (psi : ℝ) : ℝ :=
  q0 + (qwall - q0) * (psi / psi_wall) ^ 2

/-- The poloidal flux corresponding to the parabolic q-profile (the exact
integral of dψ/q). -/
noncomputable def parabolic_psip (psi : ℝ) : ℝ :=
  psi_wall / Real.sqrt (q0 * (qwall - q0)) *
    Real.arctan (psi * Real.sqrt (qwall - q0) / (psi_wall * Real.sqrt q0))

/-- `np.linspace lo hi n`: `n` evenly spaced points from `lo` to `hi`
inclusive. -/
noncomputable def linspace (lo hi : ℝ) (n : Nat) : List ℝ :=
  (List.range n).map (fun i : ℕ => lo + (hi - lo) * (i : ℝ) / ((n : ℝ) - 1))

/-- The tabulated normalized toroidal flux grid. -/
noncomputable def psi_norm : List ℝ := linspace 0 psi_wall FLUX_SURFACES

/-- The tabulated q-profile (dimension `psip_norm` in the file). -/
noncomputable def q_table : List ℝ := psi_norm.map parabolic_q

/-- The tabulated normalized poloidal flux coordinate. -/
noncomputable def psip_norm : List ℝ := psi_norm.map parabolic_psip

/-- The tabulated normalized toroidal current, `np.ones(FLUX_SURFACES)`. -/
def g_norm : List ℝ := List.replicate FLUX_SURFACES 1

/-- The tabulated normalized poloidal current, `np.zeros(FLUX_SURFACES)`. -/
def i_norm : List ℝ := List.replicate FLUX_SURFACES 0

end LarNetcdf

namespace NpzToNetcdf

/-!
Embedding of `dexter/scripts/npz_to_netcdf.py`: the npz → netCDF
conversion utility.  An array is its shape together with its flattened
data; a dataset is the ordered collection of coordinates and variables the
script assembles, and the script drops every zero-size entry before
writing the file.
-/

/-- A numpy array: shape and flattened data (`size` is the shape
product). -/
structure NpzArray where
  shape : List Nat
  data : List ℝ

def NpzArray.size (arr : NpzArray) : Nat := arr.shape.prod

/-- The input npz archive.  The required keys (`BB`, `Rmaj`, `psipol`,
`psitor`, `theta`, `r`, `I`, `g`, `q`, `RR`, `ZZ`) are present; the
perturbation keys (`m`, `n`, `alphas`, `phases`) may be absent. -/
structure Npz where
  Rmaj : NpzArray
  psipol : NpzArray
  psitor : NpzArray
  theta : NpzArray
  r : NpzArray
  i : NpzArray
  g : NpzArray
  q : NpzArray
  bb : NpzArray
  rr : NpzArray
  zz : NpzArray
  m : Option NpzArray
  n : Option NpzArray
  alphas : Option NpzArray
  phases : Option NpzArray

/-- Elementwise division of an array by a constant (shape unchanged). -/
noncomputable def scaleArr (c : ℝ) (arr : NpzArray) : NpzArray :=
  ⟨arr.shape, arr.data.map (fun v => v / c)⟩

/-- The `default_coord = np.array([])` substituted for a missing `m` or
`n` key. -/
def default_coord : NpzArray := ⟨[0], []⟩

/-- The `default_array = np.full((0, 0, len(psip)), np.nan)` substituted
for a missing `alphas` or `phases` key: zero-size, hence no stored
elements. -/
def default_array (len : Nat) : NpzArray := ⟨[0, 0, len], []⟩

/-- One entry of the assembled dataset: name, dimension names and array. -/
structure NcVariable where
  name : String
  dims : List String
  arr : NpzArray

/-- The dataset the script assembles (coordinates first, then data
variables, in the order of `COORDS` and `VARIABLES`).  Divisions mirror
the script's normalizations; `np.nan_to_num` on `alphas` is the identity
here since the real-valued model carries no NaN or inf entries. -/
noncomputable def buildDataset (npz : Npz) : List NcVariable :=
  let baxisVal : ℝ := npz.bb.data.headD 0
  let raxisVal : ℝ := npz.Rmaj.data.headD 0
  let psip := scaleArr (2 * Real.pi) npz.psipol
  let psi := scaleArr (2 * Real.pi) npz.psitor
  let m := npz.m.getD default_coord
  let n := npz.n.getD default_coord
  let alphas := scaleArr ((2 * Real.pi) ^ 2)
    (npz.alphas.getD (default_array psip.data.length))
  let phases := npz.phases.getD (default_array psip.data.length)
  let psip_norm := scaleArr (baxisVal * raxisVal ^ 2) psip
  let psi_norm := scaleArr (baxisVal * raxisVal ^ 2) psi
  let r_norm := scaleArr raxisVal npz.r
  let g_norm := scaleArr (baxisVal * raxisVal) npz.g
  let i_norm := scaleArr (baxisVal * raxisVal) npz.i
  let b_norm := scaleArr baxisVal npz.bb
  let alphas_norm := scaleArr raxisVal alphas
  [⟨"psip_norm", ["psip_norm"], psip_norm⟩,
    ⟨"theta", ["theta"], npz.theta⟩,
    ⟨"m", ["m"], m⟩,
    ⟨"n", ["n"], n⟩,
    ⟨"psi_norm", ["psi_norm"], psi_norm⟩,
    ⟨"r_norm", ["r_norm"], r_norm⟩,
    ⟨"baxis", [], ⟨[], [baxisVal]⟩⟩,
    ⟨"raxis", [], ⟨[], [raxisVal]⟩⟩,
    ⟨"psip", ["psip_norm"], psip⟩,
    ⟨"psi", ["psi_norm"], psi⟩,
    ⟨"r", ["r_norm"], npz.r⟩,
    ⟨"q", ["psip_norm"], npz.q⟩,
    ⟨"g", ["psip_norm"], npz.g⟩,
    ⟨"i", ["psip_norm"], npz.i⟩,
    ⟨"b", ["psip_norm", "theta"], npz.bb⟩,
    ⟨"rlab", ["psip_norm", "theta"], npz.rr⟩,
    ⟨"zlab", ["psip_norm", "theta"], npz.zz⟩,
    ⟨"alphas", ["m", "n", "psip_norm"], alphas⟩,
    ⟨"phases", ["m", "n", "psip_norm"], phases⟩,
    ⟨"g_norm", ["psip_norm"], g_norm⟩,
    ⟨"i_norm", ["psip_norm"], i_norm⟩,
    ⟨"b_norm", ["psip_norm", "theta"], b_norm⟩,
    ⟨"alphas_norm", ["m", "n", "psip_norm"], alphas_norm⟩]

/-- The final `drop_vars` step: remove every zero-size coordinate and
variable from the dataset. -/
def dropEmptyVars (ds : List NcVariable) : List NcVariable :=
  ds.filter (fun v => v.arr.size != 0)

/-- The whole conversion: assemble the dataset, then drop the zero-size
entries. -/
noncomputable def convert (npz : Npz) : List NcVariable :=
  dropEmptyVars (buildDataset npz)

/-- Look a variable up by name in an assembled dataset. -/
def lookupVar (ds : List NcVariable) (nm : String) : Option NcVariable :=
  ds.find? (fun v => v.name == nm)

/-- A concrete perturbation-free npz archive (every required key a
one-element array, the perturbation keys absent). -/
def npzW : Npz :=
  { Rmaj := ⟨[1], [2]⟩
    psipol := ⟨[1], [3]⟩
    psitor := ⟨[1], [4]⟩
    theta := ⟨[1], [5]⟩
    r := ⟨[1], [6]⟩
    i := ⟨[1], [7]⟩
    g := ⟨[1], [8]⟩
    q := ⟨[1], [9]⟩
    bb := ⟨[1], [10]⟩
    rr := ⟨[1], [11]⟩
    zz := ⟨[1], [12]⟩
    m := none
    n := none
    alphas := none
    phases := none }

end NpzToNetcdf

namespace PoincarePlots

/-!
Embedding of `dexter/plot/poincare_plots.py`: the branch-cut helper
`pi_mod` and the lab-coordinate conversion `to_lab`.
-/

/-- `np.mod x y` on reals (for positive `y`): `x - y * ⌊x / y⌋`. -/
noncomputable def npMod (x y : ℝ) : ℝ :=
  x - y * (Int.floor (x / y) : ℝ)

/-- The source's `pi_mod`: reduce an angle to `(-π, π]` by
`a = np.mod(arr, 2π); a = a - 2π * (a > π)`. -/
noncomputable def pi_mod (x : ℝ) : ℝ :=
  if npMod x (2 * Real.pi) > Real.pi then
    npMod x (2 * Real.pi) - 2 * Real.pi
  else npMod x (2 * Real.pi)

/-- `pi_mod` applied to an array, elementwise as numpy does. -/
noncomputable def pi_mod_arr (xs : List ℝ) : List ℝ := xs.map pi_mod

/-- A 2D float matrix: entry at `(i, j)`, with `none` standing for NaN. -/
def Mat : Type := Nat → Nat → Option ℝ

/-- Write value `v` at position `(i, j)`. -/
def matSet (mat : Mat) (i j : Nat) (v : Option ℝ) : Mat :=
  fun x y => if x = i then (if y = j then v else mat x y) else mat x y

/-- The body of `to_lab`'s nested loop at position `(i, j)`: NaN inputs
propagate to both outputs, otherwise the geometry evaluators are
applied. -/
def to_lab_step (rlab zlab : ℝ → ℝ → ℝ) (thetas psips : Mat)
    (acc : Mat × Mat) (i j : Nat) : Mat × Mat :=
  match thetas i j, psips i j with
  | some t, some p =>
    (matSet acc.1 i j (some (rlab p t)), matSet acc.2 i j (some (zlab p t)))
  | _, _ => (matSet acc.1 i j none, matSet acc.2 i j none)

/-- The source's `to_lab`: starting from two `np.zeros` matrices, loop
`i` over `range thetas.shape[0]` and `j` over `range psips.shape[1]`,
filling both outputs at `(i, j)`. -/
def to_lab (rlab zlab : ℝ → ℝ → ℝ) (nrows ncols : Nat)
    (thetas psips : Mat) : Mat × Mat :=
  (List.range nrows).foldl
    (fun acc i =>
      (List.range ncols).foldl
        (fun acc2 j => to_lab_step rlab zlab thetas psips acc2 i j) acc)
    (fun _ _ => some 0, fun _ _ => some 0)

/-- The expected first output of `to_lab` at `(i, j)`: NaN when either
input is NaN, otherwise `rlab psip theta`. -/
def labX (rlab : ℝ → ℝ → ℝ) (thetas psips : Mat) (i j : Nat) :
    Option ℝ :=
  match thetas i j, psips i j with
  | some t, some p => some (rlab p t)
  | _, _ => none

/-- The expected second output of `to_lab` at `(i, j)`: NaN when either
input is NaN, otherwise `zlab psip theta`. -/
def labY (zlab : ℝ → ℝ → ℝ) (thetas psips : Mat) (i j : Nat) :
    Option ℝ :=
  match thetas i j, psips i j with
  | some t, some p => some (zlab p t)
  | _, _ => none

/-- A concrete R-evaluator for exercising `to_lab`. -/
def rlabW : ℝ → ℝ → ℝ := fun p t => p + t

/-- A concrete Z-evaluator for exercising `to_lab`. -/
def zlabW : ℝ → ℝ → ℝ := fun p t => p - t

/-- A concrete θ-matrix with one NaN entry at `(0, 0)`. -/
def thW : Mat := fun i j => if i = 0 then (if j = 0 then none else some 1)
  else some 1

/-- A concrete ψ_p-matrix with no NaN entries. -/
def psW : Mat := fun _ _ => some 2

end PoincarePlots

namespace Dexter

theorem allLen_init (s : Sample) : (Evolution.init s).allLen 1 := by
  simp [Evolution.init, Evolution.allLen]

theorem allLen_incTaken {e : Evolution} {n : Nat} (h : e.allLen n) :
    e.incTaken.allLen n := h

theorem allLen_push {e : Evolution} {n : Nat} (h : e.allLen n)
    (s : Sample) : (e.push s).allLen (n + 1) := by
  obtain ⟨h1, h2, h3, h4, h5, h6, h7, h8, h9⟩ := h
  simp [Evolution.push, Evolution.allLen, h1, h2, h3, h4, h5, h6, h7, h8,
    h9]

theorem steps_stored_init (s : Sample) :
    (Evolution.init s).steps_stored = 1 := rfl

theorem steps_stored_push (e : Evolution) (s : Sample) :
    (e.push s).steps_stored = e.steps_stored + 1 := by
  simp [Evolution.push, Evolution.steps_stored]

theorem steps_stored_incTaken (e : Evolution) :
    e.incTaken.steps_stored = e.steps_stored := rfl

theorem wf_init (s : Sample) : (Evolution.init s).wf := by
  refine ⟨allLen_init s, ?_, ?_⟩ <;>
    simp [Evolution.init, Evolution.steps_stored]

theorem wf_incTaken {e : Evolution} (h : e.wf) : e.incTaken.wf := by
  obtain ⟨hA, h1, h2⟩ := h
  refine ⟨allLen_incTaken hA, h1, ?_⟩
  rw [steps_stored_incTaken]
  simp only [Evolution.incTaken]
  omega

theorem wf_step {e : Evolution} (h : e.wf) (s : Sample) :
    (e.incTaken.push s).wf := by
  obtain ⟨hA, h1, h2⟩ := h
  refine ⟨?_, ?_, ?_⟩
  · rw [steps_stored_push, steps_stored_incTaken]
    exact allLen_push (allLen_incTaken hA) s
  · rw [steps_stored_push]; omega
  · rw [steps_stored_push, steps_stored_incTaken]
    simp only [Evolution.push, Evolution.incTaken]
    omega

/-- The central accounting lemma of the Poincaré map driver: a `Mapped`
outcome stored exactly the `K − found` crossings still missing, on top of
whatever was stored before. -/
theorem mapDriver_mapped_allLen (K : Nat) :
    ∀ (budget : Nat) (events : List StepEvent) (found : Nat)
      (e : Evolution) (n : Nat), found < K → e.allLen n →
      (mapDriver K budget events found e).1 = .Mapped →
      ((mapDriver K budget events found e).2).allLen (n + (K - found)) := by
  intro budget events
  induction events generalizing budget with
  | nil =>
    intro found e n _ _ hst
    simp [mapDriver] at hst
  | cons ev rest ih =>
    intro found e n hfound hlen hst
    cases ev with
    | escaped => simp [mapDriver] at hst
    | nan => simp [mapDriver] at hst
    | cancelled => simp [mapDriver] at hst
    | accepted s crossing =>
      cases budget with
      | zero => simp [mapDriver] at hst
      | succ b =>
        cases crossing with
        | none =>
          simp only [mapDriver] at hst ⊢
          exact ih b found e.incTaken n hfound (allLen_incTaken hlen) hst
        | some c =>
          by_cases hif : found + 1 = K
          · simp only [mapDriver, if_pos hif] at hst ⊢
            have hK1 : K - found = 1 := by omega
            rw [hK1]
            exact allLen_push (allLen_incTaken hlen) c
          · simp only [mapDriver, if_neg hif] at hst ⊢
            have h2 : n + 1 + (K - (found + 1)) = n + (K - found) := by
              omega
            have h3 := ih b (found + 1) (e.incTaken.push c) (n + 1)
              (by omega) (allLen_push (allLen_incTaken hlen) c) hst
            rwa [h2] at h3

/-- The map driver only ever ends in one of its documented terminal
statuses. -/
theorem mapDriver_status_mem (K : Nat) :
    ∀ (budget : Nat) (events : List StepEvent) (found : Nat)
      (e : Evolution), (mapDriver K budget events found e).1 ∈
      ([.Mapped, .Escaped, .EvaluationNaN, .TimedOut,
        .InvalidIntersections, .Failed] : List Status) := by
  intro budget events
  induction events generalizing budget with
  | nil => intro found e; simp [mapDriver]
  | cons ev rest ih =>
    intro found e
    cases ev with
    | escaped => simp [mapDriver]
    | nan => simp [mapDriver]
    | cancelled => simp [mapDriver]
    | accepted s crossing =>
      cases budget with
      | zero => simp [mapDriver]
      | succ b =>
        cases crossing with
        | none =>
          simp only [mapDriver]
          exact ih b found e.incTaken
        | some c =>
          by_cases hif : found + 1 = K
          · simp [mapDriver, if_pos hif]
          · simp only [mapDriver, if_neg hif]
            exact ih b (found + 1) (e.incTaken.push c)

theorem mapDriver_wf (K : Nat) :
    ∀ (budget : Nat) (events : List StepEvent) (found : Nat)
      (e : Evolution), e.wf → ((mapDriver K budget events found e).2).wf := by
  intro budget events
  induction events generalizing budget with
  | nil => intro found e h; simpa [mapDriver] using h
  | cons ev rest ih =>
    intro found e h
    cases ev with
    | escaped => simpa [mapDriver] using h
    | nan => simpa [mapDriver] using h
    | cancelled => simpa [mapDriver] using h
    | accepted s crossing =>
      cases budget with
      | zero => simpa [mapDriver] using h
      | succ b =>
        cases crossing with
        | none =>
          simp only [mapDriver]
          exact ih b found e.incTaken (wf_incTaken h)
        | some c =>
          by_cases hif : found + 1 = K
          · simp only [mapDriver, if_pos hif]
            exact wf_step h c
          · simp only [mapDriver, if_neg hif]
            exact ih b (found + 1) (e.incTaken.push c) (wf_step h c)

theorem integrateDriver_status_mem :
    ∀ (budget : Nat) (events : List StepEvent) (e : Evolution),
      (integrateDriver budget events e).1 ∈
      ([.Integrated, .Escaped, .EvaluationNaN, .TimedOut,
        .Failed] : List Status) := by
  intro budget events
  induction events generalizing budget with
  | nil => intro e; simp [integrateDriver]
  | cons ev rest ih =>
    intro e
    cases ev with
    | escaped => simp [integrateDriver]
    | nan => simp [integrateDriver]
    | cancelled => simp [integrateDriver]
    | accepted s crossing =>
      cases budget with
      | zero => simp [integrateDriver]
      | succ b =>
        simp only [integrateDriver]
        exact ih b (e.incTaken.push s)

theorem integrateDriver_wf :
    ∀ (budget : Nat) (events : List StepEvent) (e : Evolution),
      e.wf → ((integrateDriver budget events e).2).wf := by
  intro budget events
  induction events generalizing budget with
  | nil => intro e h; simpa [integrateDriver] using h
  | cons ev rest ih =>
    intro e h
    cases ev with
    | escaped => simpa [integrateDriver] using h
    | nan => simpa [integrateDriver] using h
    | cancelled => simpa [integrateDriver] using h
    | accepted s crossing =>
      cases budget with
      | zero => simpa [integrateDriver] using h
      | succ b =>
        simp only [integrateDriver]
        exact ih b (e.incTaken.push s) (wf_step h s)

theorem freqDriver_failed_mem :
    ∀ (budget : Nat) (events : List PeriodEvent) (e : Evolution)
      (st : Status), (freqDriver budget events e).1 = .failed st →
      st ∈ ([.TimedOut, .Escaped, .EvaluationNaN, .Failed] : List Status) := by
  intro budget events
  induction events generalizing budget with
  | nil =>
    intro e st h
    simp only [freqDriver, FreqOutcome.failed.injEq] at h
    simp [← h]
  | cons ev rest ih =>
    intro e st h
    cases ev with
    | escaped =>
      simp only [freqDriver, FreqOutcome.failed.injEq] at h
      simp [← h]
    | nan =>
      simp only [freqDriver, FreqOutcome.failed.injEq] at h
      simp [← h]
    | cancelled =>
      simp only [freqDriver, FreqOutcome.failed.injEq] at h
      simp [← h]
    | accepted s closure =>
      cases budget with
      | zero =>
        simp only [freqDriver, FreqOutcome.failed.injEq] at h
        simp [← h]
      | succ b =>
        cases closure with
        | none =>
          simp only [freqDriver] at h
          exact ih b (e.incTaken.push s) st h
        | some Tavg =>
          simp only [freqDriver] at h
          cases h

theorem freqDriver_wf :
    ∀ (budget : Nat) (events : List PeriodEvent) (e : Evolution),
      e.wf → ((freqDriver budget events e).2).wf := by
  intro budget events
  induction events generalizing budget with
  | nil => intro e h; simpa [freqDriver] using h
  | cons ev rest ih =>
    intro e h
    cases ev with
    | escaped => simpa [freqDriver] using h
    | nan => simpa [freqDriver] using h
    | cancelled => simpa [freqDriver] using h
    | accepted s closure =>
      cases budget with
      | zero => simpa [freqDriver] using h
      | succ b =>
        cases closure with
        | none =>
          simp only [freqDriver]
          exact ih b (e.incTaken.push s) (wf_step h s)
        | some Tavg =>
          cases Tavg with
          | mk T avg =>
            simp only [freqDriver]
            exact wf_step h s

/-- C1: a particle whose Poincaré map driver terminates with status
`Mapped` under mapping parameters with `intersections = K` stores exactly
`K + 1` samples in its `Evolution` — the `K` crossing states plus the
initial state. -/
theorem mapped_steps_stored (s : Sample) (params : MappingParameters)
    (budget : Nat) (events : List StepEvent)
    (hK : 1 ≤ params.intersections)
    (hst : ((Particle.init s).map params budget events).status = .Mapped) :
    ((Particle.init s).map params budget events).evolution.steps_stored =
      params.intersections + 1 := by
  simp only [Particle.map, Particle.init, if_pos] at hst ⊢
  have h := mapDriver_mapped_allLen params.intersections budget events 0
    (Evolution.init s) 1 (by omega) (allLen_init s) hst
  have ht := h.1
  simp only [Evolution.steps_stored, ht]
  omega

/-- C1 witness: a concrete two-crossing run ends `Mapped` with three
stored samples. -/
theorem mapped_steps_stored_witness :
    ((Particle.init sample0).map paramsTwo 10 eventsTwoCross).status =
        .Mapped ∧
      ((Particle.init sample0).map paramsTwo 10
          eventsTwoCross).evolution.steps_stored = 3 :=
  ⟨rfl, mapped_steps_stored sample0 paramsTwo 10 eventsTwoCross
    (by decide) rfl⟩

/-- C8: the `Evolution` invariant — nine equal-length sample columns, at
least one stored sample, and `steps_taken ≥ steps_stored − 1` — holds for
a freshly constructed particle (which stores exactly the initial state
with `steps_taken = 0`) and is preserved by every driver invocation. -/
theorem evolution_invariant :
    (∀ s : Sample, (Evolution.init s).steps_taken = 0 ∧
      (Evolution.init s).steps_stored = 1 ∧
      (Evolution.init s).allLen 1 ∧ (Evolution.init s).wf) ∧
    (∀ (K budget : Nat) (events : List StepEvent) (found : Nat)
      (e : Evolution), e.wf → ((mapDriver K budget events found e).2).wf) ∧
    (∀ (budget : Nat) (events : List StepEvent) (e : Evolution),
      e.wf → ((integrateDriver budget events e).2).wf) ∧
    (∀ (budget : Nat) (events : List PeriodEvent) (e : Evolution),
      e.wf → ((freqDriver budget events e).2).wf) := by
  refine ⟨fun s => ⟨rfl, rfl, allLen_init s, wf_init s⟩, ?_, ?_, ?_⟩
  · intro K budget events found e h
    exact mapDriver_wf K budget events found e h
  · intro budget events e h
    exact integrateDriver_wf budget events e h
  · intro budget events e h
    exact freqDriver_wf budget events e h

/-- C8 witness: the invariant applied to a concrete map-driver run from a
fresh evolution. -/
theorem evolution_invariant_witness :
    ((mapDriver 2 10 eventsTwoCross 0 (Evolution.init sample0)).2).wf :=
  evolution_invariant.2.1 2 10 eventsTwoCross 0 (Evolution.init sample0)
    (evolution_invariant.1 sample0).2.2.2

theorem get?_zip {α β : Type} (l1 : List α) (l2 : List β) (i : Nat) :
    (l1.zip l2).get? i = Option.map₂ Prod.mk (l1.get? i) (l2.get? i) := by
  induction l1 generalizing l2 i with
  | nil => simp [Option.map₂]
  | cons a l1 ih =>
    cases l2 with
    | nil => simp [Option.map₂]
    | cons b l2 =>
      cases i with
      | zero => simp [Option.map₂]
      | succ j => simpa using ih l2 j

/-- C2: every per-particle result of an ensemble run is exactly the result
of that particle's own driver on its own integrator stream: an individual
failure is recorded in that particle's entry, the call always produces a
full-length result list, and no other particle's entry depends on it. -/
theorem ensemble_failure_isolated (h : Heap) (params : MappingParameters)
    (budget : Nat) (evss : List (List StepEvent))
    (pevss : List (List PeriodEvent))
    (hlen : evss.length = h.particles.length)
    (hlen2 : pevss.length = h.particles.length) :
    ((h.poincare params budget evss).particles.length =
        h.particles.length ∧
      ∀ i : Nat, (h.poincare params budget evss).particles.get? i =
        Option.map₂ (fun p ev => p.map params budget ev)
          (h.particles.get? i) (evss.get? i)) ∧
    ((h.calculate_frequencies budget pevss).particles.length =
        h.particles.length ∧
      ∀ i : Nat,
        (h.calculate_frequencies budget pevss).particles.get? i =
          Option.map₂ (fun p ev => p.calculate_frequencies budget ev)
            (h.particles.get? i) (pevss.get? i)) := by
  refine ⟨⟨?_, ?_⟩, ?_, ?_⟩
  · simp [Heap.poincare, hlen]
  · intro i
    simp only [Heap.poincare, List.get?_map, get?_zip]
    cases h.particles.get? i <;> cases evss.get? i <;> simp [Option.map₂]
  · simp [Heap.calculate_frequencies, hlen2]
  · intro i
    simp only [Heap.calculate_frequencies, List.get?_map, get?_zip]
    cases h.particles.get? i <;> cases pevss.get? i <;> simp [Option.map₂]

/-- C2 witness: a concrete one-particle ensemble run returns a
full-length particle list. -/
theorem ensemble_failure_isolated_witness :
    ((Heap.init [sample0]).poincare paramsTwo 10
        [eventsTwoCross]).particles.length =
      (Heap.init [sample0]).particles.length :=
  (ensemble_failure_isolated (Heap.init [sample0]) paramsTwo 10
    [eventsTwoCross] [peventsFound] (by simp [Heap.init])
    (by simp [Heap.init])).1.1

/-- C3: for every particle reachable by driver invocations, the three
frequencies are all present exactly when the status is
`SinglePeriodIntegrated`, and in every other status all three are
absent. -/
theorem frequencies_present_iff (p : Particle) (hR : Reached p) :
    ((p.frequencies.omega_theta.isSome ∧
        p.frequencies.omega_zeta.isSome ∧
        p.frequencies.qkinetic.isSome) ↔
      p.status = .SinglePeriodIntegrated) ∧
    (p.status ≠ .SinglePeriodIntegrated →
      p.frequencies = ⟨none, none, none⟩) := by
  induction hR with
  | init s => simp [Particle.init]
  | map p params budget events hp ih =>
    by_cases hst : p.status = .Initialized
    · have habs : p.frequencies = ⟨none, none, none⟩ :=
        ih.2 (by simp [hst])
      have hmem := mapDriver_status_mem params.intersections budget
        events 0 p.evolution
      have hne : (mapDriver params.intersections budget events 0
          p.evolution).1 ≠ .SinglePeriodIntegrated := by
        intro hc
        rw [hc] at hmem
        exact absurd hmem (by decide)
      simp only [Particle.map, if_pos hst]
      refine ⟨⟨fun hsome => ?_, fun hco => absurd hco hne⟩, fun _ => habs⟩
      rw [habs] at hsome
      simp at hsome
    · simp only [Particle.map, if_neg hst]
      exact ih
  | integrate p budget events hp ih =>
    by_cases hst : p.status = .Initialized
    · have habs : p.frequencies = ⟨none, none, none⟩ :=
        ih.2 (by simp [hst])
      have hmem := integrateDriver_status_mem budget events p.evolution
      have hne : (integrateDriver budget events p.evolution).1 ≠
          .SinglePeriodIntegrated := by
        intro hc
        rw [hc] at hmem
        exact absurd hmem (by decide)
      simp only [Particle.integrate, if_pos hst]
      refine ⟨⟨fun hsome => ?_, fun hco => absurd hco hne⟩, fun _ => habs⟩
      rw [habs] at hsome
      simp at hsome
    · simp only [Particle.integrate, if_neg hst]
      exact ih
  | calc_freqs p budget events hp ih =>
    by_cases hst : p.status = .Initialized
    · have habs : p.frequencies = ⟨none, none, none⟩ :=
        ih.2 (by simp [hst])
      rcases hfd : freqDriver budget events p.evolution with ⟨out, e⟩
      cases out with
      | failed st =>
        have hstne : st ≠ .SinglePeriodIntegrated := by
          have hm := freqDriver_failed_mem budget events p.evolution st
            (by rw [hfd])
          intro hc
          rw [hc] at hm
          exact absurd hm (by decide)
        simp only [Particle.calculate_frequencies, if_pos hst, hfd]
        refine ⟨⟨fun hsome => ?_, fun hco => absurd hco hstne⟩,
          fun _ => habs⟩
        rw [habs] at hsome
        simp at hsome
      | found T avg =>
        simp [Particle.calculate_frequencies, if_pos hst, hfd]
    · simp only [Particle.calculate_frequencies, if_neg hst]
      exact ih

/-- C3 witness: a freshly constructed particle is not
`SinglePeriodIntegrated` and stores no frequencies. -/
theorem frequencies_present_iff_witness :
    (Particle.init sample0).frequencies = ⟨none, none, none⟩ :=
  (frequencies_present_iff (Particle.init sample0)
    (Reached.init sample0)).2 (by decide)

theorem crossRow_length (params : MappingParameters) (budget : Nat)
    (ev : List StepEvent) (seed : Sample) (coord : Evolution → List ℝ)
    (hcoord : ∀ (e : Evolution) (n : Nat), e.allLen n →
      (coord e).length = n)
    (hK : 1 ≤ params.intersections) :
    (crossRow params.intersections coord
      ((Particle.init seed).map params budget ev)).length =
      params.intersections := by
  have hPe : ((Particle.init seed).map params budget ev).evolution =
      (mapDriver params.intersections budget ev 0
        (Evolution.init seed)).2 := by
    simp [Particle.map, Particle.init]
  have hPs : ((Particle.init seed).map params budget ev).status =
      (mapDriver params.intersections budget ev 0
        (Evolution.init seed)).1 := by
    simp [Particle.map, Particle.init]
  by_cases hst :
      ((Particle.init seed).map params budget ev).status = .Mapped
  · have h := mapDriver_mapped_allLen params.intersections budget ev 0
      (Evolution.init seed) 1 (by omega) (allLen_init seed)
      (by rw [← hPs]; exact hst)
    have hL := hcoord _ _ h
    rw [crossRow, if_pos hst, List.length_map, List.length_drop, hPe, hL]
    omega
  · simp [crossRow, hst]

/-- C5: after `Heap.poincare` over `N` particles with `intersections = K`,
the heap's crossing matrices — (thetas, psis) for a ConstZeta section,
(zetas, psips) for a ConstTheta section, plus the complementary
coordinate — all have shape `[N, K]`: `N` rows, each of length `K`
(crossing states for `Mapped` particles, NaN padding otherwise). -/
theorem heap_matrices_shape (seeds : List Sample)
    (params : MappingParameters) (budget : Nat)
    (evss : List (List StepEvent))
    (hlen : evss.length = seeds.length)
    (hK : 1 ≤ params.intersections) :
    (((Heap.init seeds).poincare params budget evss).thetas.length =
        seeds.length ∧
      ∀ row ∈ ((Heap.init seeds).poincare params budget evss).thetas,
        row.length = params.intersections) ∧
    (((Heap.init seeds).poincare params budget evss).psips.length =
        seeds.length ∧
      ∀ row ∈ ((Heap.init seeds).poincare params budget evss).psips,
        row.length = params.intersections) ∧
    (((Heap.init seeds).poincare params budget evss).zetas.length =
        seeds.length ∧
      ∀ row ∈ ((Heap.init seeds).poincare params budget evss).zetas,
        row.length = params.intersections) ∧
    (((Heap.init seeds).poincare params budget evss).psis.length =
        seeds.length ∧
      ∀ row ∈ ((Heap.init seeds).poincare params budget evss).psis,
        row.length = params.intersections) := by
  have key : ∀ (coord : Evolution → List ℝ),
      (∀ (e : Evolution) (n : Nat), e.allLen n → (coord e).length = n) →
      ((((Heap.init seeds).particles.zip evss).map
          (fun pe => pe.1.map params budget pe.2)).map
        (crossRow params.intersections coord)).length = seeds.length ∧
      ∀ row ∈ (((Heap.init seeds).particles.zip evss).map
          (fun pe => pe.1.map params budget pe.2)).map
        (crossRow params.intersections coord),
        row.length = params.intersections := by
    intro coord hcoord
    constructor
    · simp [Heap.init, hlen]
    · intro row hrow
      rw [List.mem_map] at hrow
      obtain ⟨p, hp, hrow⟩ := hrow
      rw [List.mem_map] at hp
      obtain ⟨pe, hpe, hp⟩ := hp
      obtain ⟨h1, _⟩ := List.mem_zip hpe
      obtain ⟨seed, _, hinit⟩ :=
        List.mem_map.mp (by simpa [Heap.init] using h1)
      rw [← hrow, ← hp, ← hinit]
      exact crossRow_length params budget pe.2 seed coord hcoord hK
  refine ⟨?_, ?_, ?_, ?_⟩
  · simpa only [Heap.poincare] using
      key Evolution.theta (fun e n hn => hn.2.1)
  · simpa only [Heap.poincare] using
      key Evolution.psip (fun e n hn => hn.2.2.1)
  · simpa only [Heap.poincare] using
      key Evolution.zeta (fun e n hn => hn.2.2.2.2.1)
  · simpa only [Heap.poincare] using
      key Evolution.psi (fun e n hn => hn.2.2.2.2.2.1)

/-- C5 witness: a concrete one-particle run yields a θ-matrix with one
row of length two. -/
theorem heap_matrices_shape_witness :
    ((Heap.init [sample0]).poincare paramsTwo 10
        [eventsTwoCross]).thetas.length = 1 :=
  (heap_matrices_shape [sample0] paramsTwo 10 [eventsTwoCross] (by simp)
    (by decide)).1.1

/-- C7: the ConstTheta event function g(θ) = sin((θ − α)/2) vanishes
exactly when θ ≡ α (mod 2π). -/
theorem constThetaEvent_eq_zero_iff (θ α : ℝ) :
    constThetaEvent α θ = 0 ↔ ∃ k : ℤ, θ = α + 2 * Real.pi * k := by
  unfold constThetaEvent
  rw [Real.sin_eq_zero_iff]
  constructor
  · rintro ⟨n, hn⟩
    refine ⟨n, ?_⟩
    have h2 : (n : ℝ) * Real.pi * 2 = θ - α := by
      rw [hn]; ring
    linarith [h2]
  · rintro ⟨k, rfl⟩
    exact ⟨k, by ring⟩

end Dexter

namespace LarNetcdf

theorem psi_wall_eq : psi_wall = 2 / 49 := by
  norm_num [psi_wall, a, raxis]

theorem psi_wall_pos : 0 < psi_wall := by
  rw [psi_wall_eq]; norm_num

/-- The inverse tangent is strictly below its argument on the positive
axis. -/
theorem arctan_lt_self {x : ℝ} (hx : 0 < x) : Real.arctan x < x := by
  have h1 : 0 < Real.arctan x := by
    have hm := Real.arctan_strictMono hx
    rwa [Real.arctan_zero] at hm
  have h2 : Real.arctan x < Real.pi / 2 := Real.arctan_lt_pi_div_two x
  have h3 := Real.lt_tan h1 h2
  rwa [Real.tan_arctan] at h3

/-- The analytic heart of C4: the poloidal-flux wall value produced by
integrating dψ/q is strictly below the toroidal-flux wall value
`(a/R0)²/2`. -/
theorem parabolic_psip_wall_lt : parabolic_psip psi_wall < psi_wall := by
  have hq0 : q0 = 11 / 10 := by norm_num [q0]
  have hqw : qwall = 19 / 10 := by norm_num [qwall]
  have hw : psi_wall ≠ 0 := ne_of_gt psi_wall_pos
  unfold parabolic_psip
  rw [hq0, hqw]
  have e1 : (19 : ℝ) / 10 - 11 / 10 = 4 / 5 := by norm_num
  rw [e1]
  have e2 : (11 : ℝ) / 10 * (4 / 5) = 22 / 25 := by norm_num
  rw [e2]
  have harg : psi_wall * Real.sqrt (4 / 5) /
      (psi_wall * Real.sqrt (11 / 10)) =
      Real.sqrt (4 / 5) / Real.sqrt (11 / 10) :=
    mul_div_mul_left _ _ hw
  rw [harg]
  have hA : (0 : ℝ) < Real.sqrt (22 / 25) := Real.sqrt_pos.mpr (by norm_num)
  have hB : (0 : ℝ) < Real.sqrt (4 / 5) := Real.sqrt_pos.mpr (by norm_num)
  have hC : (0 : ℝ) < Real.sqrt (11 / 10) := Real.sqrt_pos.mpr (by norm_num)
  have harctan := arctan_lt_self (div_pos hB hC)
  have hcpos : 0 < psi_wall / Real.sqrt (22 / 25) :=
    div_pos psi_wall_pos hA
  have hAC : Real.sqrt (22 / 25) * Real.sqrt (11 / 10) =
      Real.sqrt (121 / 125) := by
    rw [← Real.sqrt_mul (by norm_num : (0 : ℝ) ≤ 22 / 25)]
    norm_num
  have hBlt : Real.sqrt (4 / 5) <
      Real.sqrt (22 / 25) * Real.sqrt (11 / 10) := by
    rw [hAC]
    exact Real.sqrt_lt_sqrt (by norm_num) (by norm_num)
  have hACpos : 0 < Real.sqrt (22 / 25) * Real.sqrt (11 / 10) :=
    mul_pos hA hC
  calc psi_wall / Real.sqrt (22 / 25) *
        Real.arctan (Real.sqrt (4 / 5) / Real.sqrt (11 / 10))
      < psi_wall / Real.sqrt (22 / 25) *
        (Real.sqrt (4 / 5) / Real.sqrt (11 / 10)) :=
        mul_lt_mul_of_pos_left harctan hcpos
    _ = psi_wall * Real.sqrt (4 / 5) /
        (Real.sqrt (22 / 25) * Real.sqrt (11 / 10)) := div_mul_div_comm _ _ _ _
    _ < psi_wall := by
        rw [div_lt_iff hACpos]
        have := mul_lt_mul_of_pos_left hBlt psi_wall_pos
        linarith [this]

theorem linspace_getLast :
    (linspace 0 psi_wall FLUX_SURFACES).getLast? = some psi_wall := by
  unfold linspace FLUX_SURFACES
  rw [List.getLast?_map]
  have h99 : (List.range 100).getLast? = some 99 := by decide
  rw [h99]
  simp only [Option.map_some']
  norm_num

theorem linspace_head :
    (linspace 0 psi_wall FLUX_SURFACES).head? = some 0 := by
  unfold linspace FLUX_SURFACES
  rw [List.head?_map]
  have h0 : (List.range 100).head? = some 0 := by decide
  rw [h0]
  simp only [Option.map_some']
  norm_num

theorem psip_norm_getLast :
    psip_norm.getLast? = some (parabolic_psip psi_wall) := by
  unfold psip_norm psi_norm
  rw [List.getLast?_map, linspace_getLast]
  rfl

theorem q_table_getLast :
    q_table.getLast? = some (parabolic_q psi_wall) := by
  unfold q_table psi_norm
  rw [List.getLast?_map, linspace_getLast]
  rfl

theorem q_table_head : q_table.head? = some (parabolic_q 0) := by
  unfold q_table psi_norm
  rw [List.head?_map, linspace_head]
  rfl

theorem parabolic_q_zero : parabolic_q 0 = 11 / 10 := by
  unfold parabolic_q
  norm_num [q0, qwall]

theorem parabolic_q_wall : parabolic_q psi_wall = 19 / 10 := by
  unfold parabolic_q
  rw [div_self (ne_of_gt psi_wall_pos)]
  norm_num [q0, qwall]

/-- C4 counterexample: the wall (last tabulated) value of the normalized
poloidal flux `psip_norm` is `parabolic_psip psi_wall`, and that value is
*not* `(a/R0)²/2` — the latter is the wall value of the normalized
toroidal flux. -/
theorem lar_psip_wall_ne :
    psip_norm.getLast? = some (parabolic_psip psi_wall) ∧
    psi_wall = (a / raxis) ^ 2 / 2 ∧
    parabolic_psip psi_wall ≠ (a / raxis) ^ 2 / 2 :=
  ⟨psip_norm_getLast, rfl, ne_of_lt parabolic_psip_wall_lt⟩

/-- C4 (amended): in the LAR stub equilibrium, `(a/R0)²/2 = 2/49 ≈
0.04082` is the wall value of the normalized *toroidal* flux `psi_norm`;
the wall value of the normalized *poloidal* flux `psip_norm` is
`parabolic_psip` of it, which is strictly smaller; the tabulated q-profile
runs from `q0 = 1.1` at the axis to `q_wall = 1.9` at the wall; and the
normalized currents satisfy g ≡ 1 and I ≡ 0. -/
theorem lar_stub_profiles :
    psi_norm.getLast? = some psi_wall ∧
    psi_wall = 2 / 49 ∧
    psip_norm.getLast? = some (parabolic_psip psi_wall) ∧
    parabolic_psip psi_wall < psi_wall ∧
    q_table.head? = some (parabolic_q 0) ∧
    parabolic_q 0 = 11 / 10 ∧
    q_table.getLast? = some (parabolic_q psi_wall) ∧
    parabolic_q psi_wall = 19 / 10 ∧
    g_norm.Forall (fun x => x = 1) ∧
    i_norm.Forall (fun x => x = 0) := by
  refine ⟨linspace_getLast, psi_wall_eq, psip_norm_getLast,
    parabolic_psip_wall_lt, q_table_head, parabolic_q_zero,
    q_table_getLast, parabolic_q_wall, ?_, ?_⟩
  · rw [List.forall_iff_forall_mem]
    intro x hx
    exact List.eq_of_mem_replicate hx
  · rw [List.forall_iff_forall_mem]
    intro x hx
    exact List.eq_of_mem_replicate hx

end LarNetcdf

namespace PoincarePlots

theorem npMod_eq_fract (x y : ℝ) (hy : y ≠ 0) :
    npMod x y = y * Int.fract (x / y) := by
  have hc : y * (x / y) = x := by field_simp
  rw [npMod, Int.fract, mul_sub, hc]

theorem npMod_two_pi_nonneg (x : ℝ) : 0 ≤ npMod x (2 * Real.pi) := by
  rw [npMod_eq_fract x _ (by positivity)]
  exact mul_nonneg (by positivity) (Int.fract_nonneg _)

theorem npMod_two_pi_lt (x : ℝ) : npMod x (2 * Real.pi) < 2 * Real.pi := by
  rw [npMod_eq_fract x _ (by positivity)]
  calc 2 * Real.pi * Int.fract (x / (2 * Real.pi)) < 2 * Real.pi * 1 :=
        mul_lt_mul_of_pos_left (Int.fract_lt_one _) (by positivity)
    _ = 2 * Real.pi := mul_one _

theorem pi_mod_mem (x : ℝ) : -Real.pi < pi_mod x ∧ pi_mod x ≤ Real.pi := by
  have h0 := npMod_two_pi_nonneg x
  have h1 := npMod_two_pi_lt x
  have hpi := Real.pi_pos
  unfold pi_mod
  by_cases hgt : npMod x (2 * Real.pi) > Real.pi
  · rw [if_pos hgt]
    constructor <;> linarith
  · rw [if_neg hgt]
    push_neg at hgt
    exact ⟨by linarith, hgt⟩

theorem pi_mod_sub_int (x : ℝ) :
    ∃ k : ℤ, pi_mod x = x - 2 * Real.pi * k := by
  unfold pi_mod npMod
  by_cases hgt : x - 2 * Real.pi *
      (Int.floor (x / (2 * Real.pi)) : ℝ) > Real.pi
  · exact ⟨Int.floor (x / (2 * Real.pi)) + 1, by
      rw [if_pos hgt]; push_cast; ring⟩
  · exact ⟨Int.floor (x / (2 * Real.pi)), by rw [if_neg hgt]⟩

/-- The representative of `x` in `(-π, π]` modulo 2π is unique, and
`pi_mod` computes it. -/
theorem pi_mod_eq_self_of (x y : ℝ) (k : ℤ) (h1 : -Real.pi < y)
    (h2 : y ≤ Real.pi) (hk : x = y + 2 * Real.pi * k) : pi_mod x = y := by
  have hpi := Real.pi_pos
  have h2pi : (0 : ℝ) < 2 * Real.pi := by linarith
  have hdiv : x / (2 * Real.pi) = y / (2 * Real.pi) + k := by
    rw [hk]
    field_simp
    ring
  by_cases hy : 0 ≤ y
  · have hf : Int.floor (y / (2 * Real.pi)) = 0 := by
      rw [Int.floor_eq_zero_iff]
      refine ⟨div_nonneg hy (le_of_lt h2pi), ?_⟩
      rw [div_lt_one h2pi]
      linarith
    have hfx : Int.floor (x / (2 * Real.pi)) = 0 + k := by
      rw [hdiv, Int.floor_add_int, hf]
    have hnp : npMod x (2 * Real.pi) = y := by
      rw [npMod, hfx, hk]
      push_cast
      ring
    unfold pi_mod
    rw [hnp, if_neg (not_lt.mpr h2)]
  · push_neg at hy
    have hf : Int.floor (y / (2 * Real.pi)) = (-1 : ℤ) := by
      rw [Int.floor_eq_iff]
      constructor
      · push_cast
        rw [le_div_iff h2pi]
        linarith
      · push_cast
        have hneg : y / (2 * Real.pi) < 0 := div_neg_of_neg_of_pos hy h2pi
        linarith
    have hfx : Int.floor (x / (2 * Real.pi)) = (-1 : ℤ) + k := by
      rw [hdiv, Int.floor_add_int, hf]
    have hnp : npMod x (2 * Real.pi) = y + 2 * Real.pi := by
      rw [npMod, hfx, hk]
      push_cast
      ring
    unfold pi_mod
    rw [hnp, if_pos (by linarith)]
    ring

/-- C9: `pi_mod` maps every real into `(-π, π]`, differs from its input
by an integer multiple of 2π, is idempotent, and acts elementwise on
arrays. -/
theorem pi_mod_spec (x : ℝ) :
    (-Real.pi < pi_mod x ∧ pi_mod x ≤ Real.pi) ∧
    (∃ k : ℤ, pi_mod x = x - 2 * Real.pi * k) ∧
    pi_mod (pi_mod x) = pi_mod x ∧
    ∀ xs : List ℝ, pi_mod_arr xs = xs.map pi_mod := by
  refine ⟨pi_mod_mem x, pi_mod_sub_int x, ?_, fun xs => rfl⟩
  exact pi_mod_eq_self_of (pi_mod x) (pi_mod x) 0 (pi_mod_mem x).1
    (pi_mod_mem x).2 (by push_cast; ring)

theorem to_lab_step_eq (rlab zlab : ℝ → ℝ → ℝ) (thetas psips : Mat)
    (acc : Mat × Mat) (i j : Nat) :
    to_lab_step rlab zlab thetas psips acc i j =
      (matSet acc.1 i j (labX rlab thetas psips i j),
        matSet acc.2 i j (labY zlab thetas psips i j)) := by
  unfold to_lab_step labX labY
  cases thetas i j <;> cases psips i j <;> rfl

theorem inner_foldl_spec (rlab zlab : ℝ → ℝ → ℝ) (thetas psips : Mat)
    (i : Nat) :
    ∀ (l : List Nat) (acc : Mat × Mat) (i' j' : Nat),
      ((l.foldl
          (fun acc2 j => to_lab_step rlab zlab thetas psips acc2 i j)
          acc).1 i' j' =
        if i' = i ∧ j' ∈ l then labX rlab thetas psips i j'
        else acc.1 i' j') ∧
      ((l.foldl
          (fun acc2 j => to_lab_step rlab zlab thetas psips acc2 i j)
          acc).2 i' j' =
        if i' = i ∧ j' ∈ l then labY zlab thetas psips i j'
        else acc.2 i' j') := by
  intro l
  induction l with
  | nil =>
    intro acc i' j'
    simp
  | cons j l ih =>
    intro acc i' j'
    rw [List.foldl_cons]
    obtain ⟨ih1, ih2⟩ :=
      ih (to_lab_step rlab zlab thetas psips acc i j) i' j'
    constructor
    · rw [ih1, to_lab_step_eq]
      simp only [matSet, List.mem_cons]
      by_cases hI : i' = i
      · subst hI
        by_cases hJl : j' ∈ l
        · simp [hJl]
        · by_cases hJ : j' = j
          · subst hJ
            simp [hJl]
          · simp [hJl, hJ]
      · simp [hI]
    · rw [ih2, to_lab_step_eq]
      simp only [matSet, List.mem_cons]
      by_cases hI : i' = i
      · subst hI
        by_cases hJl : j' ∈ l
        · simp [hJl]
        · by_cases hJ : j' = j
          · subst hJ
            simp [hJl]
          · simp [hJl, hJ]
      · simp [hI]

theorem outer_foldl_spec (rlab zlab : ℝ → ℝ → ℝ) (thetas psips : Mat)
    (ncols : Nat) :
    ∀ (l : List Nat) (acc : Mat × Mat) (i' j' : Nat),
      ((l.foldl
          (fun acc i =>
            (List.range ncols).foldl
              (fun acc2 j => to_lab_step rlab zlab thetas psips acc2 i j)
              acc)
          acc).1 i' j' =
        if i' ∈ l ∧ j' < ncols then labX rlab thetas psips i' j'
        else acc.1 i' j') ∧
      ((l.foldl
          (fun acc i =>
            (List.range ncols).foldl
              (fun acc2 j => to_lab_step rlab zlab thetas psips acc2 i j)
              acc)
          acc).2 i' j' =
        if i' ∈ l ∧ j' < ncols then labY zlab thetas psips i' j'
        else acc.2 i' j') := by
  intro l
  induction l with
  | nil =>
    intro acc i' j'
    simp
  | cons i l ih =>
    intro acc i' j'
    rw [List.foldl_cons]
    obtain ⟨ih1, ih2⟩ := ih ((List.range ncols).foldl
      (fun acc2 j => to_lab_step rlab zlab thetas psips acc2 i j) acc)
      i' j'
    obtain ⟨in1, in2⟩ := inner_foldl_spec rlab zlab thetas psips i
      (List.range ncols) acc i' j'
    constructor
    · rw [ih1, in1]
      simp only [List.mem_cons, List.mem_range]
      by_cases hIl : i' ∈ l
      · by_cases hJ : j' < ncols
        · simp [hIl, hJ]
        · simp [hIl, hJ]
      · by_cases hI : i' = i
        · subst hI
          by_cases hJ : j' < ncols
          · simp [hIl, hJ]
          · simp [hIl, hJ]
        · simp [hIl, hI]
    · rw [ih2, in2]
      simp only [List.mem_cons, List.mem_range]
      by_cases hIl : i' ∈ l
      · by_cases hJ : j' < ncols
        · simp [hIl, hJ]
        · simp [hIl, hJ]
      · by_cases hI : i' = i
        · subst hI
          by_cases hJ : j' < ncols
          · simp [hIl, hJ]
          · simp [hIl, hJ]
        · simp [hIl, hI]

/-- C10: each entry of the two matrices produced by `to_lab` depends only
on the same-index entries of the inputs: NaN inputs propagate to both
outputs, and otherwise the entries are `rlab psip theta` and
`zlab psip theta`. -/
theorem to_lab_entry (rlab zlab : ℝ → ℝ → ℝ) (nrows ncols : Nat)
    (thetas psips : Mat) (i j : Nat) (hi : i < nrows) (hj : j < ncols) :
    (to_lab rlab zlab nrows ncols thetas psips).1 i j =
      labX rlab thetas psips i j ∧
    (to_lab rlab zlab nrows ncols thetas psips).2 i j =
      labY zlab thetas psips i j ∧
    (thetas i j = none ∨ psips i j = none →
      (to_lab rlab zlab nrows ncols thetas psips).1 i j = none ∧
      (to_lab rlab zlab nrows ncols thetas psips).2 i j = none) := by
  obtain ⟨h1, h2⟩ := outer_foldl_spec rlab zlab thetas psips ncols
    (List.range nrows) (fun _ _ => some 0, fun _ _ => some 0) i j
  have hx : (to_lab rlab zlab nrows ncols thetas psips).1 i j =
      labX rlab thetas psips i j := by
    rw [to_lab, h1]
    simp [List.mem_range, hi, hj]
  have hy : (to_lab rlab zlab nrows ncols thetas psips).2 i j =
      labY zlab thetas psips i j := by
    rw [to_lab, h2]
    simp [List.mem_range, hi, hj]
  refine ⟨hx, hy, fun hnan => ⟨?_, ?_⟩⟩
  · rw [hx]
    unfold labX
    rcases hnan with h | h
    · rw [h]
    · rw [h]
      cases thetas i j <;> rfl
  · rw [hy]
    unfold labY
    rcases hnan with h | h
    · rw [h]
    · rw [h]
      cases thetas i j <;> rfl

/-- C10 witness: the matrix entry law applied to concrete evaluators and
matrices at position `(0, 1)`. -/
theorem to_lab_entry_witness :
    (to_lab rlabW zlabW 1 2 thW psW).1 0 1 = labX rlabW thW psW 0 1 ∧
    (to_lab rlabW zlabW 1 2 thW psW).2 0 1 = labY zlabW thW psW 0 1 ∧
    (thW 0 1 = none ∨ psW 0 1 = none →
      (to_lab rlabW zlabW 1 2 thW psW).1 0 1 = none ∧
      (to_lab rlabW zlabW 1 2 thW psW).2 0 1 = none) :=
  to_lab_entry rlabW zlabW 1 2 thW psW 0 1 (by decide) (by decide)

end PoincarePlots

namespace NpzToNetcdf

/-- C6: converting an npz archive with no perturbation data still
produces a dataset: the missing keys are replaced by the empty coordinate
and the zero-size `(0, 0, len psip)` arrays, and the final drop step
removes exactly those zero-size entries, so the output simply lacks the
perturbation variables. -/
theorem convert_no_perturbations (npz : Npz)
    (hm : npz.m = none) (hn : npz.n = none) (ha : npz.alphas = none)
    (hp : npz.phases = none)
    (h1 : npz.psipol.size ≠ 0) (h2 : npz.psitor.size ≠ 0)
    (h3 : npz.theta.size ≠ 0) (h4 : npz.r.size ≠ 0)
    (h5 : npz.q.size ≠ 0) (h6 : npz.g.size ≠ 0) (h7 : npz.i.size ≠ 0)
    (h8 : npz.bb.size ≠ 0) (h9 : npz.rr.size ≠ 0)
    (h10 : npz.zz.size ≠ 0) :
    (convert npz).map NcVariable.name =
      ["psip_norm", "theta", "psi_norm", "r_norm", "baxis", "raxis",
        "psip", "psi", "r", "q", "g", "i", "b", "rlab", "zlab",
        "g_norm", "i_norm", "b_norm"] ∧
    lookupVar (buildDataset npz) "alphas" =
      some ⟨"alphas", ["m", "n", "psip_norm"],
        ⟨[0, 0, npz.psipol.data.length], []⟩⟩ ∧
    lookupVar (buildDataset npz) "m" = some ⟨"m", ["m"], ⟨[0], []⟩⟩ := by
  simp only [NpzArray.size] at h1 h2 h3 h4 h5 h6 h7 h8 h9 h10
  refine ⟨?_, ?_, ?_⟩
  · simp [convert, dropEmptyVars, buildDataset, hm, hn, ha, hp,
      NpzArray.size, scaleArr, default_coord, default_array, h1, h2, h3,
      h4, h5, h6, h7, h8, h9, h10]
  · simp [lookupVar, buildDataset, hm, hn, ha, hp, scaleArr,
      default_array, List.find?]
  · simp [lookupVar, buildDataset, hm, hn, ha, hp, scaleArr,
      default_coord, List.find?]

/-- C6 witness: the conversion of a concrete perturbation-free archive
keeps exactly the non-perturbation variables. -/
theorem convert_no_perturbations_witness :
    (convert npzW).map NcVariable.name =
      ["psip_norm", "theta", "psi_norm", "r_norm", "baxis", "raxis",
        "psip", "psi", "r", "q", "g", "i", "b", "rlab", "zlab",
        "g_norm", "i_norm", "b_norm"] :=
  (convert_no_perturbations npzW rfl rfl rfl rfl (by decide) (by decide)
    (by decide) (by decide) (by decide) (by decide) (by decide)
    (by decide) (by decide) (by decide)).1

end NpzToNetcdf
